import Mathlib

set_option maxHeartbeats 1000000

namespace Sanjiaozhou

/-- A scraped record, as produced by `DataExtractor.extract_card_data` in
`zhuaqu.py`: field `name` models the dict key `名称`, `password` models `密码`
(the spec's `secret`), and `date` models `日期` (the spec's `effective_date`). -/
structure Card where
  name : String
  password : String
  date : String
deriving DecidableEq, Repr

/-- The fixed priority list `DataProcessor.map_order` in `zhuaqu.py`. -/
def map_order : List String :=
  ["零号大坝", "长弓溪谷", "巴克什", "航天基地", "潮汐监狱"]

/-- The function `get_sort_key` nested in `DataProcessor.sort_data`:
the index of the record name in `map_order`, or `map_order.length` when the
name is absent (Python catches the `ValueError` of `list.index` and returns
`len(self.map_order)`; `List.indexOf` returns the length when absent). -/
def get_sort_key (item : Card) : Nat :=
  map_order.indexOf item.name

/-- The ordering relation induced by `get_sort_key`, used by `sort_data`. -/
def sortLE (a b : Card) : Prop :=
  get_sort_key a ≤ get_sort_key b

instance : DecidableRel sortLE :=
  fun a b => Nat.decLe (get_sort_key a) (get_sort_key b)

instance : IsTotal Card sortLE :=
  ⟨fun a b => Nat.le_total (get_sort_key a) (get_sort_key b)⟩

instance : IsTrans Card sortLE :=
  ⟨fun _ _ _ h₁ h₂ => Nat.le_trans h₁ h₂⟩

/-- `DataProcessor.sort_data`: Python `sorted(data, key=get_sort_key)` is a
stable sort by `get_sort_key`; insertion sort with the total preorder `sortLE`
is also stable, so the two agree on every input. -/
def sort_data (data : List Card) : List Card :=
  data.insertionSort sortLE

/-- A Python `dict` keyed by record name, modeled as an insertion-ordered
association list with unique keys. `dictSet` models `d[k] = v`: an existing
key keeps its position and has its value overwritten; a new key is appended
(CPython insertion-order semantics). -/
def dictSet (m : List (String × Card)) (k : String) (v : Card) :
    List (String × Card) :=
  match m with
  | [] => [(k, v)]
  | p :: rest => if p.1 == k then (k, v) :: rest else p :: dictSet rest k v

/-- Python `d.get(k)`: the value stored at key `k`, if any. -/
def dictGet (m : List (String × Card)) (k : String) : Option Card :=
  match m with
  | [] => none
  | p :: rest => if p.1 == k then some p.2 else dictGet rest k

/-- The dict comprehension `{item.get('名称'): item for item in local_data}`
building `local_by_name` in `DataProcessor.merge_data`. -/
def local_by_name (local_data : List Card) : List (String × Card) :=
  local_data.foldl (fun m item => dictSet m item.name item) []

/-- The skip test in `merge_data`: `if not name or name == 'N/A': continue`
(an empty name is falsy in Python). -/
def validName (name : String) : Bool :=
  !(name == "" || name == "N/A")

/-- The mutable state of the `for item in scraped_data` loop in `merge_data`:
the dict `final_by_name` plus the three report buckets, each appended to in
encounter order. -/
structure MergeState where
  final_by_name : List (String × Card)
  added : List String
  updated : List String
  unchanged : List String
deriving DecidableEq, Repr

/-- One iteration of the loop body of `DataProcessor.merge_data` for a single
incoming record `item`, with `localM` the (never-mutated) `local_by_name`. -/
def mergeStep (localM : List (String × Card)) (st : MergeState) (item : Card) :
    MergeState :=
  if !validName item.name then st
  else
    match dictGet localM item.name with
    | none =>
        { st with
          final_by_name := dictSet st.final_by_name item.name item,
          added := st.added ++ [item.name] }
    | some local_item =>
        if (item.date != local_item.date) || (item.password != local_item.password) then
          { st with
            final_by_name := dictSet st.final_by_name item.name item,
            updated := st.updated ++ [item.name] }
        else
          { st with unchanged := st.unchanged ++ [item.name] }

/-- `DataProcessor.merge_data`: merge the scraped batch into the local data
keyed by name and return the sorted merged list plus the report state. The
source additionally returns `added_count` etc.; those are the `.length` of the
corresponding bucket lists. -/
def merge_data (scraped_data local_data : List Card) :
    List Card × MergeState :=
  let localM := local_by_name local_data
  let st := scraped_data.foldl (mergeStep localM)
    { final_by_name := localM, added := [], updated := [], unchanged := [] }
  (sort_data (st.final_by_name.map Prod.snd), st)

/-- Classification predicate: the record would be classified `added`. -/
def isNew (localM : List (String × Card)) (item : Card) : Bool :=
  validName item.name && (dictGet localM item.name).isNone

/-- Classification predicate: the record would be classified `updated`. -/
def isUpdated (localM : List (String × Card)) (item : Card) : Bool :=
  validName item.name &&
    (match dictGet localM item.name with
     | none => false
     | some b => (item.date != b.date) || (item.password != b.password))

/-- Classification predicate: the record would be classified `unchanged`. -/
def isUnchanged (localM : List (String × Card)) (item : Card) : Bool :=
  validName item.name &&
    (match dictGet localM item.name with
     | none => false
     | some b => (item.date == b.date) && (item.password == b.password))

/-- Predicate: processing the record assigns into `final_by_name`. -/
def writes (localM : List (String × Card)) (item : Card) : Bool :=
  isNew localM item || isUpdated localM item

/-- Key list of a modeled dict. -/
def keys (m : List (String × Card)) : List String :=
  m.map Prod.fst

/-- Invariant of both dicts in `merge_data`: each value is stored under its
own name. -/
def nameInv (m : List (String × Card)) : Prop :=
  ∀ p ∈ m, p.2.name = p.1

/-- The loop state reached by `merge_data scraped_data local_data` after the
classification loop. -/
def mergeLoopState (scraped_data local_data : List Card) : MergeState :=
  scraped_data.foldl (mergeStep (local_by_name local_data))
    { final_by_name := local_by_name local_data,
      added := [], updated := [], unchanged := [] }

/-- State touched by `WebScraper.process_and_save` in `zhuaqu.py`: content of
the persisted JSON record store, content of the rendered document, and an
invocation counter for `save_data` (recording whether the publish step ran). -/
structure SysState where
  store : List Card
  html : String
  saveCalls : Nat
deriving DecidableEq, Repr

/-- `DataProcessor.save_data` in `zhuaqu.py`: write the list to the JSON
store. `ioOk` models whether the write raises `IOError`, which the method
catches and converts to `False`. -/
def save_data (ioOk : Bool) (data : List Card) (st : SysState) :
    Bool × SysState :=
  if ioOk then (true, { st with store := data, saveCalls := st.saveCalls + 1 })
  else (false, { st with saveCalls := st.saveCalls + 1 })

/-- `WebScraper.process_and_save` in `zhuaqu.py`: bail out on an empty batch,
load the local store (`load_local_data`, modeled as reading the parsed store
content), merge, and call `save_data` only when `added_count > 0` or
`updated_count > 0`; otherwise skip the save and report `False`. -/
def process_and_save (ioOk : Bool) (scraped_data : List Card) (st : SysState) :
    Bool × SysState :=
  if scraped_data.isEmpty then (false, st)
  else
    let stats := (merge_data scraped_data st.store).2
    let merged := (merge_data scraped_data st.store).1
    if 0 < stats.added.length || 0 < stats.updated.length then
      save_data ioOk merged st
    else
      (false, st)

/-- State of the target document and its backup for `HTMLUpdater` in
`main.py`. The document text is split into the part before the
`section class=list` region, the region content, and the part after;
`hasListSection` models whether `BeautifulSoup` finds the region. -/
structure DocState where
  htmlExists : Bool
  hasListSection : Bool
  beforeSection : String
  sectionContent : String
  afterSection : String
  backup : Option String
deriving DecidableEq, Repr

/-- Full text of the document, as read by `create_backup`. -/
def docText (st : DocState) : String :=
  st.beforeSection ++ st.sectionContent ++ st.afterSection

/-- `HTMLUpdater.create_backup` in `main.py`: copy the document text to the
backup path. `ioOk` models whether the copy raises `IOError`, which the
method catches, logs as a warning and converts to `False`; when the document
does not exist nothing is copied and the method returns `True`. -/
def create_backup (ioOk : Bool) (st : DocState) : Bool × DocState :=
  if st.htmlExists then
    if ioOk then (true, { st with backup := some (docText st) })
    else (false, st)
  else (true, st)

/-- `HTMLUpdater.build_card_element` in `main.py`: one rendered item per
record exposing the three fields as textual sub-elements; the exact tag and
attribute mechanics are the external Renderer's concern. -/
def build_card_element (item : Card) : String :=
  "<article>" ++ item.name ++ "|" ++ item.password ++ "|" ++ item.date ++
    "</article>"

/-- `HTMLUpdater.update_html` in `main.py`: read the document and locate the
list region (failure of either is caught by the surrounding handler and
yields `False`), create a best-effort backup whose boolean result is ignored,
clear and repopulate the region with the rendered cards in list order, and
write the document back. -/
def update_html (backupOk : Bool) (data : List Card) (st : DocState) :
    Bool × DocState :=
  if !st.htmlExists then (false, st)
  else if !st.hasListSection then (false, st)
  else
    let st1 := (create_backup backupOk st).2
    (true,
      { st1 with sectionContent := String.join (data.map build_card_element) })

/-- Outcome of the retry loop `continuous_mode` in `main.py`: attempts made,
sleeps performed, whether an attempt succeeded, and whether the exhaustion
error was logged by the `while`-`else` branch. -/
structure LoopResult where
  attempts : Nat
  sleeps : Nat
  success : Bool
  exhaustedLogged : Bool
deriving DecidableEq, Repr

/-- The `while retry_count < max_retries` loop of `continuous_mode` in
`main.py`, with `fuel = max_retries - retry_count`. `cycle k` is the boolean
outcome of `run_once_and_maybe_update` on attempt number `k`; a sleep happens
only when the attempt failed and `retry_count < max_retries` still holds. -/
def continuous_mode_go (cycle : Nat → Bool) : Nat → Nat → Nat → LoopResult
  | 0, rc, sleeps => ⟨rc, sleeps, false, true⟩
  | fuel + 1, rc, sleeps =>
    if cycle (rc + 1) then ⟨rc + 1, sleeps, true, false⟩
    else if 0 < fuel then continuous_mode_go cycle fuel (rc + 1) (sleeps + 1)
    else ⟨rc + 1, sleeps, false, true⟩

/-- `continuous_mode` in `main.py`, parameterized by the attempt budget
`config.MAX_RETRIES` and the per-attempt cycle outcome. -/
def continuous_mode (max_retries : Nat) (cycle : Nat → Bool) : LoopResult :=
  continuous_mode_go cycle max_retries 0 0

example :
    (merge_data [⟨"Alpha", "999", "2024-01-01"⟩] [⟨"Alpha", "111", "2024-01-01"⟩]).1 =
      [⟨"Alpha", "999", "2024-01-01"⟩] := by decide

example :
    (merge_data [⟨"Alpha", "999", "2024-01-01"⟩] [⟨"Alpha", "111", "2024-01-01"⟩]).2.updated =
      ["Alpha"] := by decide

example :
    (merge_data [⟨"巴克什", "1", "d"⟩, ⟨"零号大坝", "2", "d"⟩] []).1 =
      [⟨"零号大坝", "2", "d"⟩, ⟨"巴克什", "1", "d"⟩] := by decide

theorem merge_data_eq (X P : List Card) :
    merge_data X P =
      (sort_data ((mergeLoopState X P).final_by_name.map Prod.snd),
        mergeLoopState X P) := rfl

theorem dictGet_dictSet_self (m : List (String × Card)) (k : String) (v : Card) :
    dictGet (dictSet m k v) k = some v := by
  induction m with
  | nil => simp [dictSet, dictGet]
  | cons p rest ih =>
    by_cases h : p.1 == k
    · simp [dictSet, dictGet, h]
    · simp [dictSet, dictGet, h, ih]

theorem dictGet_dictSet_ne (m : List (String × Card)) {k n : String} (v : Card)
    (h : k ≠ n) : dictGet (dictSet m k v) n = dictGet m n := by
  induction m with
  | nil => simp [dictSet, dictGet, h]
  | cons p rest ih =>
    by_cases hp : p.1 == k
    · have hp1 : p.1 = k := by simpa using hp
      have : (k == n) = false := by simpa using h
      simp [dictSet, dictGet, hp, hp1, this]
    · simp [dictSet, dictGet, hp, ih]

theorem mem_keys_dictSet (m : List (String × Card)) (k n : String) (v : Card) :
    n ∈ keys (dictSet m k v) ↔ n ∈ keys m ∨ n = k := by
  induction m with
  | nil => simp [dictSet, keys]
  | cons p rest ih =>
    by_cases hp : p.1 == k
    · have hp1 : p.1 = k := by simpa using hp
      simp [dictSet, keys, hp, hp1]
      tauto
    · simp [dictSet, keys, hp] at ih ⊢
      tauto

theorem keys_cons (p : String × Card) (rest : List (String × Card)) :
    keys (p :: rest) = p.1 :: keys rest := rfl

theorem keys_nodup_dictSet (m : List (String × Card)) (k : String) (v : Card)
    (h : (keys m).Nodup) : (keys (dictSet m k v)).Nodup := by
  induction m with
  | nil => simp [dictSet, keys]
  | cons p rest ih =>
    rw [keys_cons] at h
    obtain ⟨hout, hrest⟩ := List.nodup_cons.mp h
    by_cases hp : p.1 == k
    · have hp1 : p.1 = k := by simpa using hp
      have : dictSet (p :: rest) k v = (k, v) :: rest := by simp [dictSet, hp]
      rw [this, keys_cons]
      exact List.nodup_cons.mpr ⟨hp1 ▸ hout, hrest⟩
    · have hp1 : ¬ p.1 = k := by simpa using hp
      have : dictSet (p :: rest) k v = p :: dictSet rest k v := by simp [dictSet, hp]
      rw [this, keys_cons]
      refine List.nodup_cons.mpr ⟨?_, ih hrest⟩
      intro hmem
      rcases (mem_keys_dictSet rest k p.1 v).1 hmem with hb | hb
      · exact hout hb
      · exact hp1 hb

theorem nameInv_dictSet (m : List (String × Card)) (v : Card)
    (h : nameInv m) : nameInv (dictSet m v.name v) := by
  induction m with
  | nil => intro p hp; simp [dictSet] at hp; simp [hp]
  | cons q rest ih =>
    intro p hp
    by_cases hq : q.1 == v.name
    · simp [dictSet, hq] at hp
      rcases hp with hp | hp
      · simp [hp]
      · exact h p (by simp [hp])
    · simp [dictSet, hq] at hp
      rcases hp with hp | hp
      · exact h p (by simp [hp])
      · exact ih (fun q hq => h q (by simp [hq])) p hp

theorem dictGet_mem (m : List (String × Card)) {k : String} {v : Card}
    (h : dictGet m k = some v) : (k, v) ∈ m := by
  induction m with
  | nil => simp [dictGet] at h
  | cons p rest ih =>
    by_cases hp : p.1 == k
    · have hp1 : p.1 = k := by simpa using hp
      simp [dictGet, hp] at h
      have : p = (k, v) := by
        cases p
        simp_all
      simp [this]
    · simp [dictGet, hp] at h
      exact List.mem_cons_of_mem _ (ih h)

theorem dictGet_eq_none_iff (m : List (String × Card)) (k : String) :
    dictGet m k = none ↔ k ∉ keys m := by
  induction m with
  | nil => simp [dictGet, keys]
  | cons p rest ih =>
    by_cases hp : p.1 == k
    · have hp1 : p.1 = k := by simpa using hp
      simp [dictGet, keys, hp, hp1]
    · have hp1 : ¬ p.1 = k := by simpa using hp
      simp [dictGet, keys, hp, ih]
      tauto

theorem dictGet_eq_some_of_mem (m : List (String × Card)) {k : String} {v : Card}
    (hn : (keys m).Nodup) (h : (k, v) ∈ m) : dictGet m k = some v := by
  induction m with
  | nil => simp at h
  | cons p rest ih =>
    rw [keys_cons] at hn
    obtain ⟨hout, hrest⟩ := List.nodup_cons.mp hn
    rcases List.mem_cons.1 h with h | h
    · simp [dictGet, ← h]
    · have hk : k ∈ keys rest := by
        simpa [keys] using List.mem_map_of_mem Prod.fst h
      have hpk : ¬ p.1 = k := fun hpk => hout (hpk ▸ hk)
      have hp : (p.1 == k) = false := by simpa using hpk
      simp [dictGet, hp]
      exact ih hrest h

theorem foldl_dictSet_nameInv (l : List Card) (m : List (String × Card))
    (h : nameInv m) :
    nameInv (l.foldl (fun m item => dictSet m item.name item) m) := by
  induction l generalizing m with
  | nil => exact h
  | cons a l ih => exact ih _ (nameInv_dictSet m a h)

theorem nameInv_local_by_name (P : List Card) : nameInv (local_by_name P) := by
  refine foldl_dictSet_nameInv P [] ?_
  intro p hp
  simp at hp

theorem foldl_dictSet_nodup (l : List Card) (m : List (String × Card))
    (h : (keys m).Nodup) :
    (keys (l.foldl (fun m item => dictSet m item.name item) m)).Nodup := by
  induction l generalizing m with
  | nil => exact h
  | cons a l ih => exact ih _ (keys_nodup_dictSet m a.name a h)

theorem keys_nodup_local_by_name (P : List Card) :
    (keys (local_by_name P)).Nodup := by
  refine foldl_dictSet_nodup P [] ?_
  simp [keys]

theorem foldl_dictSet_mem_keys (l : List Card) (m : List (String × Card))
    (n : String) :
    n ∈ keys (l.foldl (fun m item => dictSet m item.name item) m) ↔
      n ∈ keys m ∨ ∃ p ∈ l, p.name = n := by
  induction l generalizing m with
  | nil => simp
  | cons a l ih =>
    simp only [List.foldl_cons, ih, mem_keys_dictSet]
    constructor
    · rintro (⟨h | h⟩ | ⟨p, hp, hn⟩)
      · exact Or.inl h
      · exact Or.inr ⟨a, by simp, h.symm⟩
      · exact Or.inr ⟨p, by simp [hp], hn⟩
    · rintro (h | ⟨p, hp, hn⟩)
      · exact Or.inl (Or.inl h)
      · rcases List.mem_cons.1 hp with rfl | hp
        · exact Or.inl (Or.inr hn.symm)
        · exact Or.inr ⟨p, hp, hn⟩

theorem mem_keys_local_by_name (P : List Card) (n : String) :
    n ∈ keys (local_by_name P) ↔ ∃ p ∈ P, p.name = n := by
  rw [local_by_name, foldl_dictSet_mem_keys]
  simp [keys]

theorem mergeStep_invalid {item : Card} (localM : List (String × Card))
    (st : MergeState) (hv : validName item.name = false) :
    mergeStep localM st item = st := by
  simp [mergeStep, hv]

theorem mergeStep_new {item : Card} (localM : List (String × Card))
    (st : MergeState) (hv : validName item.name = true)
    (hg : dictGet localM item.name = none) :
    mergeStep localM st item =
      { st with
        final_by_name := dictSet st.final_by_name item.name item,
        added := st.added ++ [item.name] } := by
  simp [mergeStep, hv, hg]

theorem mergeStep_updated {item b : Card} (localM : List (String × Card))
    (st : MergeState) (hv : validName item.name = true)
    (hg : dictGet localM item.name = some b)
    (hc : ((item.date != b.date) || (item.password != b.password)) = true) :
    mergeStep localM st item =
      { st with
        final_by_name := dictSet st.final_by_name item.name item,
        updated := st.updated ++ [item.name] } := by
  simp [mergeStep, hv, hg, hc]

theorem mergeStep_unchanged {item b : Card} (localM : List (String × Card))
    (st : MergeState) (hv : validName item.name = true)
    (hg : dictGet localM item.name = some b)
    (hc : ((item.date != b.date) || (item.password != b.password)) = false) :
    mergeStep localM st item =
      { st with unchanged := st.unchanged ++ [item.name] } := by
  simp [mergeStep, hv, hg, hc]

theorem isNew_eq {item : Card} (localM : List (String × Card)) :
    isNew localM item =
      (validName item.name && (dictGet localM item.name).isNone) := rfl

theorem writes_false_of_invalid {item : Card} (localM : List (String × Card))
    (hv : validName item.name = false) : writes localM item = false := by
  simp [writes, isNew, isUpdated, hv]

theorem writes_false_of_unchanged {item b : Card} (localM : List (String × Card))
    (hv : validName item.name = true)
    (hg : dictGet localM item.name = some b)
    (hc : ((item.date != b.date) || (item.password != b.password)) = false) :
    writes localM item = false := by
  simp [writes, isNew, isUpdated, hv, hg, hc]

theorem writes_true_of_new {item : Card} (localM : List (String × Card))
    (hv : validName item.name = true)
    (hg : dictGet localM item.name = none) : writes localM item = true := by
  simp [writes, isNew, hv, hg]

theorem writes_true_of_updated {item b : Card} (localM : List (String × Card))
    (hv : validName item.name = true)
    (hg : dictGet localM item.name = some b)
    (hc : ((item.date != b.date) || (item.password != b.password)) = true) :
    writes localM item = true := by
  simp [writes, isUpdated, hv, hg, hc]

theorem loop_added (X : List Card) (localM : List (String × Card))
    (st : MergeState) :
    (X.foldl (mergeStep localM) st).added =
      st.added ++ (X.filter (isNew localM)).map Card.name := by
  induction X generalizing st with
  | nil => simp
  | cons item X ih =>
    by_cases hv : validName item.name
    · cases hg : dictGet localM item.name with
      | none =>
        have hnew : isNew localM item = true := by simp [isNew, hv, hg]
        simp only [List.foldl_cons, mergeStep_new localM st hv hg, ih,
          List.filter_cons, hnew]
        simp
      | some b =>
        have hnew : isNew localM item = false := by simp [isNew, hg]
        by_cases hc : ((item.date != b.date) || (item.password != b.password)) = true
        · simp only [List.foldl_cons, mergeStep_updated localM st hv hg hc, ih,
            List.filter_cons, hnew]
          simp
        · simp only [List.foldl_cons,
            mergeStep_unchanged localM st hv hg (by simpa using hc), ih,
            List.filter_cons, hnew]
          simp
    · have hv' : validName item.name = false := by simpa using hv
      have hnew : isNew localM item = false := by simp [isNew, hv']
      simp only [List.foldl_cons, mergeStep_invalid localM st hv', ih,
        List.filter_cons, hnew]
      simp

theorem loop_updated (X : List Card) (localM : List (String × Card))
    (st : MergeState) :
    (X.foldl (mergeStep localM) st).updated =
      st.updated ++ (X.filter (isUpdated localM)).map Card.name := by
  induction X generalizing st with
  | nil => simp
  | cons item X ih =>
    by_cases hv : validName item.name
    · cases hg : dictGet localM item.name with
      | none =>
        have hupd : isUpdated localM item = false := by simp [isUpdated, hg]
        simp only [List.foldl_cons, mergeStep_new localM st hv hg, ih,
          List.filter_cons, hupd]
        simp
      | some b =>
        by_cases hc : ((item.date != b.date) || (item.password != b.password)) = true
        · have hupd : isUpdated localM item = true := by simp [isUpdated, hv, hg, hc]
          simp only [List.foldl_cons, mergeStep_updated localM st hv hg hc, ih,
            List.filter_cons, hupd]
          simp
        · have hupd : isUpdated localM item = false := by
            simp [isUpdated, hv, hg]
            simpa using hc
          simp only [List.foldl_cons,
            mergeStep_unchanged localM st hv hg (by simpa using hc), ih,
            List.filter_cons, hupd]
          simp
    · have hv' : validName item.name = false := by simpa using hv
      have hupd : isUpdated localM item = false := by simp [isUpdated, hv']
      simp only [List.foldl_cons, mergeStep_invalid localM st hv', ih,
        List.filter_cons, hupd]
      simp

theorem loop_unchanged (X : List Card) (localM : List (String × Card))
    (st : MergeState) :
    (X.foldl (mergeStep localM) st).unchanged =
      st.unchanged ++ (X.filter (isUnchanged localM)).map Card.name := by
  induction X generalizing st with
  | nil => simp
  | cons item X ih =>
    by_cases hv : validName item.name
    · cases hg : dictGet localM item.name with
      | none =>
        have hun : isUnchanged localM item = false := by simp [isUnchanged, hg]
        simp only [List.foldl_cons, mergeStep_new localM st hv hg, ih,
          List.filter_cons, hun]
        simp
      | some b =>
        by_cases hc : ((item.date != b.date) || (item.password != b.password)) = true
        · have hun : isUnchanged localM item = false := by
            simp [isUnchanged, hg]
            intro h1 h2
            simpa [h2] using hc
          simp only [List.foldl_cons, mergeStep_updated localM st hv hg hc, ih,
            List.filter_cons, hun]
          simp
        · have hc' : ((item.date != b.date) || (item.password != b.password)) = false := by
            simpa using hc
          have hun : isUnchanged localM item = true := by
            simp [isUnchanged, hv, hg]
            constructor
            · by_contra h
              simp [h] at hc'
            · by_contra h
              simp [h] at hc'
          simp only [List.foldl_cons, mergeStep_unchanged localM st hv hg hc', ih,
            List.filter_cons, hun]
          simp
    · have hv' : validName item.name = false := by simpa using hv
      have hun : isUnchanged localM item = false := by simp [isUnchanged, hv']
      simp only [List.foldl_cons, mergeStep_invalid localM st hv', ih,
        List.filter_cons, hun]
      simp

theorem loop_lookup (X : List Card) (localM : List (String × Card))
    (st : MergeState) (n : String) :
    dictGet (X.foldl (mergeStep localM) st).final_by_name n =
      X.foldl
        (fun acc r => if (r.name == n) && writes localM r then some r else acc)
        (dictGet st.final_by_name n) := by
  induction X generalizing st with
  | nil => simp
  | cons item X ih =>
    by_cases hv : validName item.name
    · cases hg : dictGet localM item.name with
      | none =>
        have hw := writes_true_of_new localM hv hg
        by_cases hnn : item.name = n
        · subst hnn
          have h1 : dictGet (dictSet st.final_by_name item.name item) item.name =
              some item := dictGet_dictSet_self _ _ _
          simp only [List.foldl_cons, mergeStep_new localM st hv hg, ih, h1, hw]
          simp
        · have h1 : dictGet (dictSet st.final_by_name item.name item) n =
              dictGet st.final_by_name n := dictGet_dictSet_ne _ _ hnn
          have h2 : (item.name == n) = false := by simpa using hnn
          simp only [List.foldl_cons, mergeStep_new localM st hv hg, ih, h1, h2]
          simp
      | some b =>
        by_cases hc : ((item.date != b.date) || (item.password != b.password)) = true
        · have hw := writes_true_of_updated localM hv hg hc
          by_cases hnn : item.name = n
          · subst hnn
            have h1 : dictGet (dictSet st.final_by_name item.name item) item.name =
                some item := dictGet_dictSet_self _ _ _
            simp only [List.foldl_cons, mergeStep_updated localM st hv hg hc, ih,
              h1, hw]
            simp
          · have h1 : dictGet (dictSet st.final_by_name item.name item) n =
                dictGet st.final_by_name n := dictGet_dictSet_ne _ _ hnn
            have h2 : (item.name == n) = false := by simpa using hnn
            simp only [List.foldl_cons, mergeStep_updated localM st hv hg hc, ih,
              h1, h2]
            simp
        · have hc' := (Bool.not_eq_true _).mp hc
          have hw := writes_false_of_unchanged localM hv hg hc'
          simp only [List.foldl_cons, mergeStep_unchanged localM st hv hg hc', ih,
            hw]
          simp
    · have hv' : validName item.name = false := by simpa using hv
      have hw := writes_false_of_invalid localM hv'
      simp only [List.foldl_cons, mergeStep_invalid localM st hv', ih, hw]
      simp

theorem loop_keys_sup (X : List Card) (localM : List (String × Card))
    (st : MergeState) (n : String) (h : n ∈ keys st.final_by_name) :
    n ∈ keys (X.foldl (mergeStep localM) st).final_by_name := by
  induction X generalizing st with
  | nil => exact h
  | cons item X ih =>
    by_cases hv : validName item.name
    · cases hg : dictGet localM item.name with
      | none =>
        rw [List.foldl_cons, mergeStep_new localM st hv hg]
        exact ih _ ((mem_keys_dictSet _ _ _ _).mpr (Or.inl h))
      | some b =>
        by_cases hc : ((item.date != b.date) || (item.password != b.password)) = true
        · rw [List.foldl_cons, mergeStep_updated localM st hv hg hc]
          exact ih _ ((mem_keys_dictSet _ _ _ _).mpr (Or.inl h))
        · rw [List.foldl_cons,
            mergeStep_unchanged localM st hv hg ((Bool.not_eq_true _).mp hc)]
          exact ih _ h
    · rw [List.foldl_cons, mergeStep_invalid localM st (by simpa using hv)]
      exact ih _ h

theorem loop_final_nodup (X : List Card) (localM : List (String × Card))
    (st : MergeState) (h : (keys st.final_by_name).Nodup) :
    (keys (X.foldl (mergeStep localM) st).final_by_name).Nodup := by
  induction X generalizing st with
  | nil => exact h
  | cons item X ih =>
    by_cases hv : validName item.name
    · cases hg : dictGet localM item.name with
      | none =>
        rw [List.foldl_cons, mergeStep_new localM st hv hg]
        exact ih _ (keys_nodup_dictSet _ _ _ h)
      | some b =>
        by_cases hc : ((item.date != b.date) || (item.password != b.password)) = true
        · rw [List.foldl_cons, mergeStep_updated localM st hv hg hc]
          exact ih _ (keys_nodup_dictSet _ _ _ h)
        · rw [List.foldl_cons,
            mergeStep_unchanged localM st hv hg ((Bool.not_eq_true _).mp hc)]
          exact ih _ h
    · rw [List.foldl_cons, mergeStep_invalid localM st (by simpa using hv)]
      exact ih _ h

theorem loop_final_nameInv (X : List Card) (localM : List (String × Card))
    (st : MergeState) (h : nameInv st.final_by_name) :
    nameInv (X.foldl (mergeStep localM) st).final_by_name := by
  induction X generalizing st with
  | nil => exact h
  | cons item X ih =>
    by_cases hv : validName item.name
    · cases hg : dictGet localM item.name with
      | none =>
        rw [List.foldl_cons, mergeStep_new localM st hv hg]
        exact ih _ (nameInv_dictSet _ _ h)
      | some b =>
        by_cases hc : ((item.date != b.date) || (item.password != b.password)) = true
        · rw [List.foldl_cons, mergeStep_updated localM st hv hg hc]
          exact ih _ (nameInv_dictSet _ _ h)
        · rw [List.foldl_cons,
            mergeStep_unchanged localM st hv hg ((Bool.not_eq_true _).mp hc)]
          exact ih _ h
    · rw [List.foldl_cons, mergeStep_invalid localM st (by simpa using hv)]
      exact ih _ h

theorem final_nameInv (X P : List Card) :
    nameInv (mergeLoopState X P).final_by_name :=
  loop_final_nameInv X _ _ (nameInv_local_by_name P)

theorem final_keys_nodup (X P : List Card) :
    (keys (mergeLoopState X P).final_by_name).Nodup :=
  loop_final_nodup X _ _ (keys_nodup_local_by_name P)

theorem map_name_values (m : List (String × Card)) (h : nameInv m) :
    (m.map Prod.snd).map Card.name = keys m := by
  induction m with
  | nil => simp [keys]
  | cons p rest ih =>
    have hp := h p (by simp)
    rw [List.map_cons, List.map_cons, keys_cons, hp]
    rw [ih (fun q hq => h q (by simp [hq]))]

theorem merged_perm_values (X P : List Card) :
    (merge_data X P).1.Perm
      ((mergeLoopState X P).final_by_name.map Prod.snd) := by
  rw [merge_data_eq]
  exact List.perm_insertionSort sortLE _

/-- Shared invariant: the merged list has pairwise-distinct names. -/
theorem merged_names_nodup (X P : List Card) :
    ((merge_data X P).1.map Card.name).Nodup := by
  have h1 : (((mergeLoopState X P).final_by_name.map Prod.snd).map Card.name).Nodup := by
    rw [map_name_values _ (final_nameInv X P)]
    exact final_keys_nodup X P
  exact ((merged_perm_values X P).map Card.name).symm.nodup h1

theorem mem_merged_of_dictGet (X P : List Card) {n : String} {v : Card}
    (h : dictGet (mergeLoopState X P).final_by_name n = some v) :
    v ∈ (merge_data X P).1 := by
  have hmem : (n, v) ∈ (mergeLoopState X P).final_by_name := dictGet_mem _ h
  have : v ∈ (mergeLoopState X P).final_by_name.map Prod.snd :=
    List.mem_map_of_mem Prod.snd hmem
  exact (merged_perm_values X P).mem_iff.mpr this

theorem dictGet_of_mem_merged (X P : List Card) {m : Card}
    (hm : m ∈ (merge_data X P).1) :
    dictGet (mergeLoopState X P).final_by_name m.name = some m := by
  have : m ∈ (mergeLoopState X P).final_by_name.map Prod.snd :=
    (merged_perm_values X P).mem_iff.mp hm
  obtain ⟨p, hp, hpm⟩ := List.mem_map.1 this
  have hkey : p.1 = m.name := by
    rw [← hpm]
    exact (final_nameInv X P p hp).symm
  have : (m.name, m) ∈ (mergeLoopState X P).final_by_name := by
    have : p = (m.name, m) := by
      cases p
      simp at hkey hpm
      simp [hkey, hpm]
    rw [← this]
    exact hp
  exact dictGet_eq_some_of_mem _ (final_keys_nodup X P) this

theorem state_added (X P : List Card) :
    (mergeLoopState X P).added =
      (X.filter (isNew (local_by_name P))).map Card.name := by
  rw [mergeLoopState, loop_added]
  simp

theorem state_updated (X P : List Card) :
    (mergeLoopState X P).updated =
      (X.filter (isUpdated (local_by_name P))).map Card.name := by
  rw [mergeLoopState, loop_updated]
  simp

theorem state_unchanged (X P : List Card) :
    (mergeLoopState X P).unchanged =
      (X.filter (isUnchanged (local_by_name P))).map Card.name := by
  rw [mergeLoopState, loop_unchanged]
  simp

theorem state_lookup (X P : List Card) (n : String) :
    dictGet (mergeLoopState X P).final_by_name n =
      X.foldl
        (fun acc r =>
          if (r.name == n) && writes (local_by_name P) r then some r else acc)
        (dictGet (local_by_name P) n) := by
  rw [mergeLoopState, loop_lookup]

theorem foldl_if_filter (q sel : Card → Bool)
    (h : ∀ r, q r = true → sel r = true) (l : List Card) (init : Option Card) :
    l.foldl (fun acc r => if q r then some r else acc) init =
      (l.filter sel).foldl (fun acc r => if q r then some r else acc) init := by
  induction l generalizing init with
  | nil => simp
  | cons r t ih =>
    by_cases hs : sel r
    · simp only [List.foldl_cons, List.filter_cons, hs, if_true]
      exact ih _
    · have hq : q r = false := by
        cases hqr : q r
        · rfl
        · exact absurd (h r hqr) hs
      simp only [List.foldl_cons, List.filter_cons, hs, hq]
      simp only [Bool.false_eq_true, if_false]
      exact ih _

theorem lookup_of_filter_singleton (X P : List Card) (r : Card)
    (hf : X.filter (fun x => x.name == r.name) = [r]) :
    dictGet (mergeLoopState X P).final_by_name r.name =
      if writes (local_by_name P) r then some r
      else dictGet (local_by_name P) r.name := by
  rw [state_lookup,
    foldl_if_filter
      (fun x => (x.name == r.name) && writes (local_by_name P) x)
      (fun x => x.name == r.name) (fun x hx => by simpa using And.left (by simpa using hx))
      X _, hf]
  simp only [List.foldl_cons, List.foldl_nil, beq_self_eq_true, Bool.true_and]

theorem filter_name_eq_filter_valid (l : List Card) (n : String)
    (hval : validName n = true) :
    l.filter (fun x => x.name == n) =
      (l.filter (fun x => validName x.name)).filter (fun x => x.name == n) := by
  induction l with
  | nil => simp
  | cons a t ih =>
    by_cases ha : a.name = n
    · have hv : validName a.name = true := ha ▸ hval
      have hb : (a.name == n) = true := by simpa using ha
      simp [hb, hv, ih]
    · have hb : (a.name == n) = false := by simpa using ha
      by_cases hv : validName a.name
      · simp [hb, hv, ih]
      · have hv' : validName a.name = false := by simpa using hv
        simp [hb, hv', ih]

theorem filter_name_eq_singleton (l : List Card) (r : Card)
    (hnd : (l.map Card.name).Nodup) (hr : r ∈ l) :
    l.filter (fun x => x.name == r.name) = [r] := by
  induction l with
  | nil => simp at hr
  | cons a t ih =>
    rw [List.map_cons] at hnd
    obtain ⟨hout, hrest⟩ := List.nodup_cons.mp hnd
    rcases List.mem_cons.1 hr with rfl | hr
    · have hft : t.filter (fun x => x.name == r.name) = [] := by
        rw [List.filter_eq_nil_iff]
        intro b hb hbeq
        exact hout (by
          have : b.name = r.name := by simpa using hbeq
          rw [← this]
          exact List.mem_map_of_mem Card.name hb)
      simp [List.filter_cons, hft]
    · have ha : (a.name == r.name) = false := by
        have : ¬ a.name = r.name := fun h =>
          hout (h ▸ List.mem_map_of_mem Card.name hr)
        simpa using this
      simp only [List.filter_cons, ha]
      simpa using ih hrest hr

theorem filter_name_length_le_one (l : List Card) (n : String)
    (hnd : (l.map Card.name).Nodup) :
    (l.filter (fun x => x.name == n)).length ≤ 1 := by
  induction l with
  | nil => simp
  | cons a t ih =>
    rw [List.map_cons] at hnd
    obtain ⟨hout, hrest⟩ := List.nodup_cons.mp hnd
    by_cases ha : a.name = n
    · have hft : t.filter (fun x => x.name == n) = [] := by
        rw [List.filter_eq_nil_iff]
        intro b hb hbeq
        exact hout (by
          have hbn : b.name = a.name := by
            have : b.name = n := by simpa using hbeq
            rw [this, ha]
          rw [← hbn]
          exact List.mem_map_of_mem Card.name hb)
      simp [List.filter_cons, ha, hft]
    · have ha' : (a.name == n) = false := by simpa using ha
      simp only [List.filter_cons, ha']
      simpa using ih hrest

theorem perm_eq_of_length_le_one {l₁ l₂ : List Card} (h : l₁.Perm l₂)
    (hl : l₁.length ≤ 1) : l₁ = l₂ := by
  cases l₁ with
  | nil => exact (List.perm_nil.mp h.symm).symm
  | cons a t =>
    cases t with
    | nil => exact (List.perm_singleton.mp h.symm).symm
    | cons b u => simp at hl

theorem valid_of_isNew {localM : List (String × Card)} {item : Card}
    (h : isNew localM item = true) : validName item.name = true := by
  rw [isNew, Bool.and_eq_true] at h
  exact h.1

theorem valid_of_isUpdated {localM : List (String × Card)} {item : Card}
    (h : isUpdated localM item = true) : validName item.name = true := by
  rw [isUpdated, Bool.and_eq_true] at h
  exact h.1

theorem valid_of_isUnchanged {localM : List (String × Card)} {item : Card}
    (h : isUnchanged localM item = true) : validName item.name = true := by
  rw [isUnchanged, Bool.and_eq_true] at h
  exact h.1

theorem loop_skip_invalid (X : List Card) (localM : List (String × Card))
    (st : MergeState) :
    X.foldl (mergeStep localM) st =
      (X.filter (fun r => validName r.name)).foldl (mergeStep localM) st := by
  induction X generalizing st with
  | nil => rfl
  | cons item X ih =>
    by_cases hv : validName item.name
    · simp only [List.foldl_cons, List.filter_cons, hv, if_true]
      exact ih _
    · have hv' : validName item.name = false := by simpa using hv
      simp only [List.foldl_cons, List.filter_cons, hv', mergeStep_invalid localM st hv']
      simp only [Bool.false_eq_true, if_false]
      exact ih _

/-- Claim C10: for every incoming batch and persisted list, the merged list
returned by `merge_data` contains at most one record per name: the sequence
of names of the merged list has no duplicates. -/
theorem C10_merged_names_unique (X P : List Card) :
    ((merge_data X P).1.map Card.name).Nodup :=
  merged_names_nodup X P

/-- Claim C2: every name present in some record of the persisted list `P`
appears in the merged list returned by `merge_data X P`, for every incoming
batch `X` (in particular also when the name occurs in no record of `X`);
the merge never removes a persisted name. -/
theorem C2_persisted_names_in_merged (X P : List Card) (p : Card)
    (hp : p ∈ P) : ∃ m ∈ (merge_data X P).1, m.name = p.name := by
  have hk : p.name ∈ keys (local_by_name P) :=
    (mem_keys_local_by_name P p.name).mpr ⟨p, hp, rfl⟩
  have hk2 : p.name ∈ keys (mergeLoopState X P).final_by_name := by
    rw [mergeLoopState]
    exact loop_keys_sup X _ _ _ hk
  rw [keys] at hk2
  obtain ⟨q, hq, hq1⟩ := List.mem_map.1 hk2
  refine ⟨q.2, ?_, ?_⟩
  · exact (merged_perm_values X P).mem_iff.mpr (List.mem_map_of_mem Prod.snd hq)
  · rw [final_nameInv X P q hq, hq1]

theorem C2_witness :
    ∃ m ∈ (merge_data []
        [({ name := "Alpha", password := "111", date := "2024-01-01" } : Card)]).1,
      m.name = ({ name := "Alpha", password := "111", date := "2024-01-01" } : Card).name :=
  C2_persisted_names_in_merged []
    [({ name := "Alpha", password := "111", date := "2024-01-01" } : Card)]
    ({ name := "Alpha", password := "111", date := "2024-01-01" } : Card)
    (by simp)

/-- Claim C5: incoming records whose name is empty or the sentinel string
recognized by the code are skipped entirely by `merge_data`: removing them
from the batch changes neither the merged list nor the report, and no report
bucket ever holds an empty or sentinel name. -/
theorem C5_sentinel_records_skipped (X P : List Card) :
    merge_data X P = merge_data (X.filter (fun r => validName r.name)) P ∧
      (((merge_data X P).2.added ++ (merge_data X P).2.updated ++
          (merge_data X P).2.unchanged).all (fun n => validName n)) = true := by
  constructor
  · rw [merge_data_eq, merge_data_eq]
    have h : mergeLoopState X P =
        mergeLoopState (X.filter (fun r => validName r.name)) P := by
      rw [mergeLoopState, mergeLoopState]
      exact loop_skip_invalid X _ _
    rw [h]
  · have h2 : (merge_data X P).2 = mergeLoopState X P := by rw [merge_data_eq]
    rw [h2, state_added, state_updated, state_unchanged]
    simp only [List.all_append, Bool.and_eq_true, List.all_eq_true]
    refine ⟨⟨?_, ?_⟩, ?_⟩
    · intro n hn
      obtain ⟨r, hr, rfl⟩ := List.mem_map.1 hn
      exact valid_of_isNew (List.of_mem_filter hr)
    · intro n hn
      obtain ⟨r, hr, rfl⟩ := List.mem_map.1 hn
      exact valid_of_isUpdated (List.of_mem_filter hr)
    · intro n hn
      obtain ⟨r, hr, rfl⟩ := List.mem_map.1 hn
      exact valid_of_isUnchanged (List.of_mem_filter hr)

/-- Claim C7: whenever the change report of `merge_data` on the scraped batch
and the persisted store has `added_count + updated_count = 0`, the publish
step of `process_and_save` is skipped entirely: `save_data` is not invoked,
the record store and the document are left unchanged, and the method returns
`False`. -/
theorem C7_noop_skip (ioOk : Bool) (scraped_data : List Card) (st : SysState)
    (h : (merge_data scraped_data st.store).2.added.length +
        (merge_data scraped_data st.store).2.updated.length = 0) :
    process_and_save ioOk scraped_data st = (false, st) := by
  by_cases he : scraped_data.isEmpty
  · simp [process_and_save, he]
  · have he' : scraped_data.isEmpty = false := by simpa using he
    have ha : (merge_data scraped_data st.store).2.added.length = 0 := by omega
    have hu : (merge_data scraped_data st.store).2.updated.length = 0 := by omega
    simp [process_and_save, he', ha, hu]

theorem C7_noop_skip_witness :
    ((merge_data [({ name := "Alpha", password := "111", date := "2024-01-01" } : Card)]
        (SysState.mk [({ name := "Alpha", password := "111", date := "2024-01-01" } : Card)] "doc" 0).store).2.added.length +
      (merge_data [({ name := "Alpha", password := "111", date := "2024-01-01" } : Card)]
        (SysState.mk [({ name := "Alpha", password := "111", date := "2024-01-01" } : Card)] "doc" 0).store).2.updated.length = 0) ∧
    process_and_save true
        [({ name := "Alpha", password := "111", date := "2024-01-01" } : Card)]
        (SysState.mk [({ name := "Alpha", password := "111", date := "2024-01-01" } : Card)] "doc" 0) =
      (false, SysState.mk [({ name := "Alpha", password := "111", date := "2024-01-01" } : Card)] "doc" 0) :=
  ⟨by decide, C7_noop_skip true _ _ (by decide)⟩

/-- Claim C8: a failure of the backup copy in `create_backup` never aborts
the publish: `update_html` ignores the backup outcome (its result is the
same whether the backup succeeds or fails), proceeds with the primary
document write, and still returns success on a well-formed document. -/
theorem C8_backup_failure_nonfatal (data : List Card) (st : DocState) :
    ((update_html false data st).1 = (update_html true data st).1) ∧
      (st.htmlExists = true → st.hasListSection = true →
        (create_backup false st).1 = false ∧
          (update_html false data st).1 = true ∧
          (update_html false data st).2.sectionContent =
            String.join (data.map build_card_element)) := by
  constructor
  · by_cases h1 : st.htmlExists <;> by_cases h2 : st.hasListSection <;>
      simp [update_html, h1, h2]
  · intro h1 h2
    refine ⟨?_, ?_, ?_⟩ <;> simp [update_html, create_backup, h1, h2]

theorem C8_backup_failure_nonfatal_witness :
    ((⟨true, true, "head", "old", "tail", none⟩ : DocState)).htmlExists = true ∧
      (create_backup false ((⟨true, true, "head", "old", "tail", none⟩ : DocState))).1 = false ∧
      (update_html false [] ((⟨true, true, "head", "old", "tail", none⟩ : DocState))).1 = true ∧
      (update_html false [] ((⟨true, true, "head", "old", "tail", none⟩ : DocState))).2.sectionContent =
        String.join (([] : List Card).map build_card_element) :=
  ⟨rfl, (C8_backup_failure_nonfatal [] ((⟨true, true, "head", "old", "tail", none⟩ : DocState))).2 rfl rfl⟩

/-- Claim C9: with an attempt budget of 3 and a cycle that always fails, the
retry loop `continuous_mode` makes exactly 3 attempts, sleeps exactly twice
(never after the last attempt), stops exhausted and logs the failure; and on
the first attempt that returns `true` it stops immediately with success and
performs no further sleep. -/
theorem C9_retry_loop :
    continuous_mode 3 (fun _ => false) = LoopResult.mk 3 2 false true ∧
      ∀ (cycle : Nat → Bool) (k : Nat), 1 ≤ k → k ≤ 3 →
        (∀ j, 1 ≤ j → j < k → cycle j = false) → cycle k = true →
        continuous_mode 3 cycle = LoopResult.mk k (k - 1) true false := by
  constructor
  · rfl
  · intro cycle k h1 h3 hprev hk
    interval_cases k
    · simp [continuous_mode, continuous_mode_go, hk]
    · have hc1 : cycle 1 = false := hprev 1 (by omega) (by omega)
      simp [continuous_mode, continuous_mode_go, hc1, hk]
    · have hc1 : cycle 1 = false := hprev 1 (by omega) (by omega)
      have hc2 : cycle 2 = false := hprev 2 (by omega) (by omega)
      simp [continuous_mode, continuous_mode_go, hc1, hc2, hk]

theorem C9_retry_loop_witness :
    continuous_mode 3 (fun j => decide (j = 2)) = LoopResult.mk 2 1 true false :=
  (C9_retry_loop).2 (fun j => decide (j = 2)) 2 (by decide) (by decide)
    (fun j hj1 hj2 => by
      have : j = 1 := by omega
      rw [this]
      decide)
    (by decide)

/-- Claim C1 (counterexample): with persisted `P = [Alpha/s1/d1]` and incoming
batch `X = [Alpha/s2/d1, Alpha/s1/d1]`, the second incoming record has a
baseline entry whose two compared fields are equal, so the claim requires the
baseline entry to be retained as-is; the code classifies the name as
unchanged but the merged list no longer contains the baseline entry (the
earlier duplicate replaced it). -/
theorem C1_counterexample :
    dictGet (local_by_name [(⟨"Alpha", "s1", "d1"⟩ : Card)]) "Alpha" =
        some (⟨"Alpha", "s1", "d1"⟩ : Card) ∧
      "Alpha" ∈ (merge_data
          [(⟨"Alpha", "s2", "d1"⟩ : Card), (⟨"Alpha", "s1", "d1"⟩ : Card)]
          [(⟨"Alpha", "s1", "d1"⟩ : Card)]).2.unchanged ∧
      ¬ ((⟨"Alpha", "s1", "d1"⟩ : Card) ∈ (merge_data
          [(⟨"Alpha", "s2", "d1"⟩ : Card), (⟨"Alpha", "s1", "d1"⟩ : Card)]
          [(⟨"Alpha", "s1", "d1"⟩ : Card)]).1) := by
  decide

/-- Claim C1 (amended): for an incoming record `r` with a valid name that is
the only occurrence of its name in the incoming batch and whose name has a
baseline entry `b` in the persisted data, `merge_data` classifies the name
as updated and the merged entry of that name is `r` when the password
(`secret`) or date (`effective_date`) differs, and classifies it as
unchanged, with the merged entry of that name still `b`, when both fields
are equal. -/
theorem C1_update_or_unchanged (X P : List Card) (r b : Card)
    (hval : validName r.name = true)
    (hf : X.filter (fun x => x.name == r.name) = [r])
    (hb : dictGet (local_by_name P) r.name = some b) :
    (((r.date != b.date) || (r.password != b.password)) = true →
      r.name ∈ (merge_data X P).2.updated ∧
        r ∈ (merge_data X P).1 ∧
        ∀ m ∈ (merge_data X P).1, m.name = r.name → m = r) ∧
    (r.date = b.date → r.password = b.password →
      r.name ∈ (merge_data X P).2.unchanged ∧
        b ∈ (merge_data X P).1 ∧
        ∀ m ∈ (merge_data X P).1, m.name = r.name → m = b) := by
  have hrX : r ∈ X := by
    have : r ∈ X.filter (fun x => x.name == r.name) := by
      rw [hf]
      exact List.mem_singleton_self r
    exact List.mem_of_mem_filter this
  have h2 : (merge_data X P).2 = mergeLoopState X P := by rw [merge_data_eq]
  have hlk := lookup_of_filter_singleton X P r hf
  constructor
  · intro hc
    have hupd : isUpdated (local_by_name P) r = true := by
      simp [isUpdated, hval, hb, hc]
    have hw : writes (local_by_name P) r = true :=
      writes_true_of_updated _ hval hb hc
    have hlk' : dictGet (mergeLoopState X P).final_by_name r.name = some r := by
      rw [hlk, hw]
      simp
    refine ⟨?_, ?_, ?_⟩
    · rw [h2, state_updated]
      exact List.mem_map_of_mem Card.name (List.mem_filter.mpr ⟨hrX, hupd⟩)
    · exact mem_merged_of_dictGet X P hlk'
    · intro m hm hmn
      have := dictGet_of_mem_merged X P hm
      rw [hmn, hlk'] at this
      exact (Option.some_inj.mp this).symm
  · intro hd hp
    have hc : ((r.date != b.date) || (r.password != b.password)) = false := by
      simp [hd, hp]
    have hun : isUnchanged (local_by_name P) r = true := by
      simp [isUnchanged, hval, hb, hd, hp]
    have hw : writes (local_by_name P) r = false :=
      writes_false_of_unchanged _ hval hb hc
    have hlk' : dictGet (mergeLoopState X P).final_by_name r.name = some b := by
      rw [hlk, hw]
      simp [hb]
    refine ⟨?_, ?_, ?_⟩
    · rw [h2, state_unchanged]
      exact List.mem_map_of_mem Card.name (List.mem_filter.mpr ⟨hrX, hun⟩)
    · exact mem_merged_of_dictGet X P hlk'
    · intro m hm hmn
      have := dictGet_of_mem_merged X P hm
      rw [hmn, hlk'] at this
      exact (Option.some_inj.mp this).symm

theorem C1_update_or_unchanged_witness :
    (⟨"Beta", "s2", "d1"⟩ : Card).name ∈
        (merge_data [(⟨"Beta", "s2", "d1"⟩ : Card)]
          [(⟨"Beta", "s1", "d1"⟩ : Card)]).2.updated ∧
      (⟨"Beta", "s2", "d1"⟩ : Card) ∈
        (merge_data [(⟨"Beta", "s2", "d1"⟩ : Card)]
          [(⟨"Beta", "s1", "d1"⟩ : Card)]).1 ∧
      ∀ m ∈ (merge_data [(⟨"Beta", "s2", "d1"⟩ : Card)]
          [(⟨"Beta", "s1", "d1"⟩ : Card)]).1,
        m.name = (⟨"Beta", "s2", "d1"⟩ : Card).name →
          m = (⟨"Beta", "s2", "d1"⟩ : Card) :=
  (C1_update_or_unchanged [(⟨"Beta", "s2", "d1"⟩ : Card)]
    [(⟨"Beta", "s1", "d1"⟩ : Card)] (⟨"Beta", "s2", "d1"⟩ : Card)
    (⟨"Beta", "s1", "d1"⟩ : Card) (by decide) (by decide) (by decide)).1
    (by decide)

theorem count_name_filter (l : List Card) (p : Card → Bool) (n : String) :
    (((l.filter p).map Card.name).count n) =
      l.countP (fun x => p x && (x.name == n)) := by
  induction l with
  | nil => simp
  | cons a t ih =>
    by_cases hp : p a = true
    · by_cases han : (a.name == n) = true
      · simp [List.filter_cons, List.countP_cons, List.count_cons, hp, han, ih]
      · have han' : (a.name == n) = false := by simpa using han
        simp [List.filter_cons, List.countP_cons, List.count_cons, hp, han', ih]
    · have hp' : p a = false := by simpa using hp
      simp [List.filter_cons, List.countP_cons, hp', ih]

theorem countP_three (l : List Card) (q1 q2 q3 q : Card → Bool)
    (h : ∀ x ∈ l,
      ((if q1 x then 1 else 0) + (if q2 x then 1 else 0) +
        (if q3 x then 1 else 0) : Nat) = (if q x then 1 else 0)) :
    l.countP q1 + l.countP q2 + l.countP q3 = l.countP q := by
  induction l with
  | nil => simp
  | cons a t ih =>
    simp only [List.countP_cons]
    have ha := h a (by simp)
    have iht := ih (fun x hx => h x (by simp [hx]))
    by_cases h1 : q1 a = true <;> by_cases h2 : q2 a = true <;>
      by_cases h3 : q3 a = true <;> by_cases h4 : q a = true <;>
      simp_all <;> omega

/-- Claim C4 (counterexample): with persisted `P = [Gamma/x1/y1]` and incoming
batch `X = [Gamma/x2/y1, Gamma/x1/y1]`, the valid name `Gamma` appears both
in the `updated` bucket (first record differs) and in the `unchanged` bucket
(second record equals the baseline), so it does not appear in exactly one
bucket. -/
theorem C4_counterexample :
    "Gamma" ∈ (merge_data
        [(⟨"Gamma", "x2", "y1"⟩ : Card), (⟨"Gamma", "x1", "y1"⟩ : Card)]
        [(⟨"Gamma", "x1", "y1"⟩ : Card)]).2.updated ∧
      "Gamma" ∈ (merge_data
        [(⟨"Gamma", "x2", "y1"⟩ : Card), (⟨"Gamma", "x1", "y1"⟩ : Card)]
        [(⟨"Gamma", "x1", "y1"⟩ : Card)]).2.unchanged := by
  decide

/-- Claim C4 (amended): when no valid name occurs in two records of the
incoming batch, every record of the batch with a valid (non-empty,
non-sentinel) name has its name in exactly one of the `added`, `updated` and
`unchanged` buckets of `merge_data`, and exactly once: the name occurs once
in the concatenation of the three buckets. -/
theorem C4_exclusive_classification (X P : List Card) (r : Card)
    (hnd : ((X.filter (fun x => validName x.name)).map Card.name).Nodup)
    (hr : r ∈ X) (hval : validName r.name = true) :
    ((merge_data X P).2.added ++ (merge_data X P).2.updated ++
        (merge_data X P).2.unchanged).count r.name = 1 := by
  have h2 : (merge_data X P).2 = mergeLoopState X P := by rw [merge_data_eq]
  rw [h2, state_added, state_updated, state_unchanged, List.count_append,
    List.count_append, count_name_filter, count_name_filter, count_name_filter]
  have hsum :
      X.countP (fun x => isNew (local_by_name P) x && (x.name == r.name)) +
        X.countP (fun x => isUpdated (local_by_name P) x && (x.name == r.name)) +
        X.countP (fun x => isUnchanged (local_by_name P) x && (x.name == r.name)) =
      X.countP (fun x => x.name == r.name) := by
    apply countP_three
    intro x _
    by_cases hxn : (x.name == r.name) = true
    · have hxv : validName x.name = true := by
        have hx : x.name = r.name := by simpa using hxn
        rw [hx]
        exact hval
      cases hg : dictGet (local_by_name P) x.name with
      | none =>
        have e1 : isNew (local_by_name P) x = true := by simp [isNew, hxv, hg]
        have e2 : isUpdated (local_by_name P) x = false := by simp [isUpdated, hg]
        have e3 : isUnchanged (local_by_name P) x = false := by
          simp [isUnchanged, hg]
        simp [e1, e2, e3, hxn]
      | some b =>
        have e1 : isNew (local_by_name P) x = false := by simp [isNew, hg]
        by_cases hc : ((x.date != b.date) || (x.password != b.password)) = true
        · have e2 : isUpdated (local_by_name P) x = true := by
            simp [isUpdated, hxv, hg, hc]
          have e3 : isUnchanged (local_by_name P) x = false := by
            simp [isUnchanged, hg]
            intro hv1 hd1
            simpa [hd1] using hc
          simp [e1, e2, e3, hxn]
        · have hc' : ((x.date != b.date) || (x.password != b.password)) = false := by
            simpa using hc
          have e2 : isUpdated (local_by_name P) x = false := by
            simp [isUpdated, hxv, hg]
            simpa using hc'
          have e3 : isUnchanged (local_by_name P) x = true := by
            have hd : x.date = b.date := by
              by_contra hd
              simp [hd] at hc'
            have hp : x.password = b.password := by
              by_contra hp
              simp [hp] at hc'
            simp [isUnchanged, hxv, hg, hd, hp]
          simp [e1, e2, e3, hxn]
    · have hxn' : (x.name == r.name) = false := by simpa using hxn
      simp [hxn']
  rw [hsum, List.countP_eq_length_filter]
  have hone : X.filter (fun x => x.name == r.name) = [r] := by
    rw [filter_name_eq_filter_valid X r.name hval]
    exact filter_name_eq_singleton _ r hnd (List.mem_filter.mpr ⟨hr, hval⟩)
  rw [hone]
  rfl

theorem C4_exclusive_classification_witness :
    ((merge_data [(⟨"Delta", "1", "1"⟩ : Card)] []).2.added ++
        (merge_data [(⟨"Delta", "1", "1"⟩ : Card)] []).2.updated ++
        (merge_data [(⟨"Delta", "1", "1"⟩ : Card)] []).2.unchanged).count
      (⟨"Delta", "1", "1"⟩ : Card).name = 1 :=
  C4_exclusive_classification [(⟨"Delta", "1", "1"⟩ : Card)] []
    (⟨"Delta", "1", "1"⟩ : Card) (by decide) (by decide) (by decide)

theorem sort_data_sorted (l : List Card) : List.Sorted sortLE (sort_data l) :=
  List.sorted_insertionSort sortLE l

theorem sort_data_of_sorted {l : List Card} (h : List.Sorted sortLE l) :
    sort_data l = l :=
  h.insertionSort_eq

theorem dictSet_not_mem (m : List (String × Card)) (k : String) (v : Card)
    (h : k ∉ keys m) : dictSet m k v = m ++ [(k, v)] := by
  induction m with
  | nil => simp [dictSet]
  | cons p rest ih =>
    rw [keys_cons] at h
    have hp : (p.1 == k) = false := by
      have : ¬ p.1 = k := fun hpk => h (by simp [hpk])
      simpa using this
    rw [dictSet]
    simp only [hp]
    simp only [Bool.false_eq_true, if_false, List.cons_append]
    rw [ih (fun hk => h (by simp [hk]))]

theorem foldl_dictSet_append (l : List Card) (m : List (String × Card))
    (hdisj : ∀ c ∈ l, c.name ∉ keys m)
    (hnd : (l.map Card.name).Nodup) :
    l.foldl (fun m item => dictSet m item.name item) m =
      m ++ l.map (fun c => (c.name, c)) := by
  induction l generalizing m with
  | nil => simp
  | cons a t ih =>
    rw [List.map_cons] at hnd
    obtain ⟨hout, hrest⟩ := List.nodup_cons.mp hnd
    rw [List.foldl_cons, dictSet_not_mem m a.name a (hdisj a (by simp))]
    rw [ih (m ++ [(a.name, a)]) ?_ hrest]
    · simp
    · intro c hc
      rw [keys, List.map_append]
      simp only [List.mem_append]
      rintro (hcm | hcm)
      · exact hdisj c (by simp [hc]) (by simpa [keys] using hcm)
      · have : c.name = a.name := by simpa using hcm
        exact hout (this ▸ List.mem_map_of_mem Card.name hc)

theorem local_by_name_eq_map (l : List Card)
    (h : (l.map Card.name).Nodup) :
    local_by_name l = l.map (fun c => (c.name, c)) := by
  rw [local_by_name, foldl_dictSet_append l [] (by simp [keys]) h]
  simp

theorem dictGet_map_pairing (l : List Card) (n : String) :
    dictGet (l.map (fun c => (c.name, c))) n =
      l.find? (fun c => c.name == n) := by
  induction l with
  | nil => simp [dictGet]
  | cons a t ih =>
    by_cases ha : (a.name == n) = true
    · simp [dictGet, List.find?, ha]
    · have ha' : (a.name == n) = false := by simpa using ha
      simp [dictGet, List.find?, ha', ih]

theorem map_pairing_snd (l : List Card) :
    (l.map (fun c => (c.name, c))).map Prod.snd = l := by
  induction l with
  | nil => rfl
  | cons a t ih => simp [ih]

theorem find?_eq_some_of_unique (l : List Card) (e : Card) (n : String)
    (he : e ∈ l) (hen : e.name = n)
    (huniq : ∀ m ∈ l, m.name = n → m = e) :
    l.find? (fun c => c.name == n) = some e := by
  induction l with
  | nil => simp at he
  | cons a t ih =>
    by_cases ha : (a.name == n) = true
    · have hae : a = e := huniq a (by simp) (by simpa using ha)
      rw [hae]
      have hbeq : (e.name == n) = true := by simpa using hen
      simp [List.find?, hbeq]
    · have ha' : (a.name == n) = false := by simpa using ha
      have het : e ∈ t := by
        rcases List.mem_cons.1 he with rfl | het
        · simp [hen] at ha'
        · exact het
      simp only [List.find?, ha']
      exact ih het (fun m hm => huniq m (by simp [hm]))

theorem loop_final_of_no_writes (X : List Card)
    (localM : List (String × Card)) (st : MergeState)
    (h : ∀ r ∈ X, writes localM r = false) :
    (X.foldl (mergeStep localM) st).final_by_name = st.final_by_name := by
  induction X generalizing st with
  | nil => rfl
  | cons item X ih =>
    have hw : writes localM item = false := h item (by simp)
    have hrest : ∀ r ∈ X, writes localM r = false := fun r hr => h r (by simp [hr])
    by_cases hv : validName item.name
    · cases hg : dictGet localM item.name with
      | none => simp [writes_true_of_new localM hv hg] at hw
      | some b =>
        by_cases hc : ((item.date != b.date) || (item.password != b.password)) = true
        · simp [writes_true_of_updated localM hv hg hc] at hw
        · rw [List.foldl_cons,
            mergeStep_unchanged localM st hv hg ((Bool.not_eq_true _).mp hc)]
          exact ih _ hrest
    · rw [List.foldl_cons, mergeStep_invalid localM st (by simpa using hv)]
      exact ih _ hrest

theorem isNew_false_of_isUnchanged {localM : List (String × Card)} {r : Card}
    (h : isUnchanged localM r = true) : isNew localM r = false := by
  cases hg : dictGet localM r.name with
  | none => rw [isUnchanged, hg] at h; simp at h
  | some b => simp [isNew, hg]

theorem isUpdated_false_of_isUnchanged {localM : List (String × Card)} {r : Card}
    (h : isUnchanged localM r = true) : isUpdated localM r = false := by
  cases hg : dictGet localM r.name with
  | none => rw [isUnchanged, hg] at h; simp at h
  | some b =>
    rw [isUnchanged, hg, Bool.and_eq_true, Bool.and_eq_true] at h
    obtain ⟨hv, hd, hp⟩ := h
    have hd' : r.date = b.date := by simpa using hd
    have hp' : r.password = b.password := by simpa using hp
    simp [isUpdated, hg, hd', hp']

theorem run_two_unchanged (X P : List Card) (r : Card)
    (hnd : ((X.filter (fun x => validName x.name)).map Card.name).Nodup)
    (hr : r ∈ X) (hval : validName r.name = true) :
    isUnchanged (local_by_name (merge_data X P).1) r = true := by
  have hMnd : ((merge_data X P).1.map Card.name).Nodup := merged_names_nodup X P
  have hlbm : local_by_name (merge_data X P).1 =
      (merge_data X P).1.map (fun c => (c.name, c)) :=
    local_by_name_eq_map _ hMnd
  have hfX : X.filter (fun x => x.name == r.name) = [r] := by
    rw [filter_name_eq_filter_valid X r.name hval]
    exact filter_name_eq_singleton _ r hnd (List.mem_filter.mpr ⟨hr, hval⟩)
  have hlk := lookup_of_filter_singleton X P r hfX
  have hentry : ∃ e, dictGet (mergeLoopState X P).final_by_name r.name = some e ∧
      e.name = r.name ∧ e.date = r.date ∧ e.password = r.password := by
    by_cases hw : writes (local_by_name P) r = true
    · refine ⟨r, ?_, rfl, rfl, rfl⟩
      rw [hlk, hw]
      simp
    · have hw' : writes (local_by_name P) r = false := by simpa using hw
      rw [writes, Bool.or_eq_false_iff] at hw'
      obtain ⟨hnew, hupd⟩ := hw'
      rw [isNew, Bool.and_eq_false_iff] at hnew
      rcases hnew with hnew | hnew
      · rw [hval] at hnew; simp at hnew
      · have hsome : (dictGet (local_by_name P) r.name).isSome = true := by
          cases hg : dictGet (local_by_name P) r.name with
          | none => rw [hg] at hnew; simp at hnew
          | some b => rfl
        obtain ⟨b, hb⟩ := Option.isSome_iff_exists.mp hsome
        have hbn : b.name = r.name := by
          have := nameInv_local_by_name P (r.name, b) (dictGet_mem _ hb)
          simpa using this
        rw [isUpdated, hb] at hupd
        rw [Bool.and_eq_false_iff] at hupd
        rcases hupd with hupd | hupd
        · rw [hval] at hupd; simp at hupd
        · have hd : r.date = b.date := by
            by_contra hd
            simp [hd] at hupd
          have hp : r.password = b.password := by
            by_contra hp
            simp [hp] at hupd
          refine ⟨b, ?_, hbn, hd.symm, hp.symm⟩
          rw [hlk, if_neg]
          · exact hb
          · simp [writes, isNew, isUpdated, hb, hval, hd, hp]
  obtain ⟨e, hlk', hen, hed, hep⟩ := hentry
  have heM : e ∈ (merge_data X P).1 := mem_merged_of_dictGet X P hlk'
  have huniq : ∀ m ∈ (merge_data X P).1, m.name = r.name → m = e := by
    intro m hm hmn
    have := dictGet_of_mem_merged X P hm
    rw [hmn, hlk'] at this
    exact (Option.some_inj.mp this).symm
  have hfind : (merge_data X P).1.find? (fun c => c.name == r.name) = some e :=
    find?_eq_some_of_unique _ e r.name heM hen huniq
  have hget2 : dictGet (local_by_name (merge_data X P).1) r.name = some e := by
    rw [hlbm, dictGet_map_pairing, hfind]
  simp [isUnchanged, hval, hget2, hed, hep]

/-- Claim C3 (counterexample): with persisted `P = [Epsilon/s1/d1]` and
incoming batch `X = [Epsilon/s2/d1, Epsilon/s1/d1]` (a duplicated name), the
second application of `merge_data` with the same batch changes the merged
list again and reports an update, so reconcile is not idempotent as stated
for arbitrary batches. -/
theorem C3_counterexample :
    ¬ ((merge_data
          [(⟨"Epsilon", "s2", "d1"⟩ : Card), (⟨"Epsilon", "s1", "d1"⟩ : Card)]
          (merge_data
            [(⟨"Epsilon", "s2", "d1"⟩ : Card), (⟨"Epsilon", "s1", "d1"⟩ : Card)]
            [(⟨"Epsilon", "s1", "d1"⟩ : Card)]).1).1 =
        (merge_data
          [(⟨"Epsilon", "s2", "d1"⟩ : Card), (⟨"Epsilon", "s1", "d1"⟩ : Card)]
          [(⟨"Epsilon", "s1", "d1"⟩ : Card)]).1) ∧
      ¬ ((merge_data
          [(⟨"Epsilon", "s2", "d1"⟩ : Card), (⟨"Epsilon", "s1", "d1"⟩ : Card)]
          (merge_data
            [(⟨"Epsilon", "s2", "d1"⟩ : Card), (⟨"Epsilon", "s1", "d1"⟩ : Card)]
            [(⟨"Epsilon", "s1", "d1"⟩ : Card)]).1).2.updated = []) := by
  decide

/-- Claim C3 (amended): when no valid name occurs in two records of the
incoming batch `X`, reconcile is idempotent: merging `X` into the result of
`merge_data X P` returns the same merged list, empty `added` and `updated`
buckets, and classifies every valid name of `X` as unchanged. -/
theorem C3_idempotent (X P : List Card)
    (hnd : ((X.filter (fun x => validName x.name)).map Card.name).Nodup) :
    (merge_data X (merge_data X P).1).1 = (merge_data X P).1 ∧
      (merge_data X (merge_data X P).1).2.added = [] ∧
      (merge_data X (merge_data X P).1).2.updated = [] ∧
      (merge_data X (merge_data X P).1).2.unchanged =
        (X.filter (fun x => validName x.name)).map Card.name := by
  have hMnd : ((merge_data X P).1.map Card.name).Nodup := merged_names_nodup X P
  have hlbm : local_by_name (merge_data X P).1 =
      (merge_data X P).1.map (fun c => (c.name, c)) :=
    local_by_name_eq_map _ hMnd
  have hunch : ∀ r ∈ X, validName r.name = true →
      isUnchanged (local_by_name (merge_data X P).1) r = true :=
    fun r hr hv => run_two_unchanged X P r hnd hr hv
  have h2 : (merge_data X (merge_data X P).1).2 =
      mergeLoopState X (merge_data X P).1 := by rw [merge_data_eq]
  refine ⟨?_, ?_, ?_, ?_⟩
  · have hnow : ∀ r ∈ X, writes (local_by_name (merge_data X P).1) r = false := by
      intro r hr
      by_cases hv : validName r.name
      · have hu := hunch r hr hv
        rw [writes, isNew_false_of_isUnchanged hu, isUpdated_false_of_isUnchanged hu]
        rfl
      · exact writes_false_of_invalid _ (by simpa using hv)
    have hfin : (mergeLoopState X (merge_data X P).1).final_by_name =
        local_by_name (merge_data X P).1 := by
      rw [mergeLoopState]
      exact loop_final_of_no_writes X _ _ hnow
    have hfst : (merge_data X (merge_data X P).1).1 =
        sort_data ((mergeLoopState X (merge_data X P).1).final_by_name.map Prod.snd) := by
      rw [merge_data_eq]
    rw [hfst, hfin, hlbm]
    rw [map_pairing_snd]
    have hsorted : List.Sorted sortLE (merge_data X P).1 := by
      rw [merge_data_eq]
      exact sort_data_sorted _
    exact sort_data_of_sorted hsorted
  · rw [h2, state_added]
    rw [List.map_eq_nil_iff, List.filter_eq_nil_iff]
    intro r hr
    by_cases hv : validName r.name
    · rw [isNew_false_of_isUnchanged (hunch r hr hv)]
      simp
    · rw [isNew, Bool.and_eq_true]
      rintro ⟨hv1, _⟩
      exact hv hv1
  · rw [h2, state_updated]
    rw [List.map_eq_nil_iff, List.filter_eq_nil_iff]
    intro r hr
    by_cases hv : validName r.name
    · rw [isUpdated_false_of_isUnchanged (hunch r hr hv)]
      simp
    · rw [isUpdated, Bool.and_eq_true]
      rintro ⟨hv1, _⟩
      exact hv hv1
  · rw [h2, state_unchanged]
    congr 1
    apply List.filter_congr
    intro r hr
    by_cases hv : validName r.name
    · rw [hunch r hr hv, hv]
    · have hv' : validName r.name = false := by simpa using hv
      rw [hv', isUnchanged, hv']
      rfl

theorem C3_idempotent_witness :
    (merge_data [(⟨"Zeta", "9", "8"⟩ : Card)]
        (merge_data [(⟨"Zeta", "9", "8"⟩ : Card)] [(⟨"Zeta", "1", "2"⟩ : Card)]).1).1 =
        (merge_data [(⟨"Zeta", "9", "8"⟩ : Card)] [(⟨"Zeta", "1", "2"⟩ : Card)]).1 ∧
      (merge_data [(⟨"Zeta", "9", "8"⟩ : Card)]
        (merge_data [(⟨"Zeta", "9", "8"⟩ : Card)] [(⟨"Zeta", "1", "2"⟩ : Card)]).1).2.added = [] ∧
      (merge_data [(⟨"Zeta", "9", "8"⟩ : Card)]
        (merge_data [(⟨"Zeta", "9", "8"⟩ : Card)] [(⟨"Zeta", "1", "2"⟩ : Card)]).1).2.updated = [] ∧
      (merge_data [(⟨"Zeta", "9", "8"⟩ : Card)]
        (merge_data [(⟨"Zeta", "9", "8"⟩ : Card)] [(⟨"Zeta", "1", "2"⟩ : Card)]).1).2.unchanged =
        (([(⟨"Zeta", "9", "8"⟩ : Card)]).filter (fun x => validName x.name)).map Card.name :=
  C3_idempotent [(⟨"Zeta", "9", "8"⟩ : Card)] [(⟨"Zeta", "1", "2"⟩ : Card)]
    (by decide)

theorem dictGet_cons_ne (p : String × Card) (t : List (String × Card))
    (n : String) (h : ¬ p.1 = n) : dictGet (p :: t) n = dictGet t n := by
  have h' : (p.1 == n) = false := by simpa using h
  simp [dictGet, h']

theorem dictGet_split (m : List (String × Card)) (k : String) (v : Card)
    (h : dictGet m k = some v) :
    ∃ a b, m = a ++ (k, v) :: b ∧ k ∉ keys a := by
  induction m with
  | nil => simp [dictGet] at h
  | cons p rest ih =>
    by_cases hp : (p.1 == k) = true
    · have hp1 : p.1 = k := by simpa using hp
      rw [dictGet] at h
      simp only [hp, if_true] at h
      refine ⟨[], rest, ?_, by simp [keys]⟩
      have : p = (k, v) := by
        cases p
        simp only [Option.some_inj] at h
        simp_all
      rw [this]
      rfl
    · rw [dictGet] at h
      simp only [hp] at h
      simp only [Bool.false_eq_true, if_false] at h
      obtain ⟨a, b, hab, hka⟩ := ih h
      refine ⟨p :: a, b, by rw [hab]; rfl, ?_⟩
      rw [keys_cons]
      simp only [List.mem_cons]
      rintro (hk | hk)
      · exact (by simpa using hp : ¬ p.1 = k) hk.symm
      · exact hka hk

theorem dictGet_append (m₁ m₂ : List (String × Card)) (n : String) :
    dictGet (m₁ ++ m₂) n = (dictGet m₁ n).or (dictGet m₂ n) := by
  induction m₁ with
  | nil => rfl
  | cons p rest ih =>
    by_cases hp : (p.1 == n) = true
    · simp [dictGet, hp]
    · have hp' : (p.1 == n) = false := by simpa using hp
      simp [dictGet, hp', ih]

theorem perm_of_dictGet_eq (m₁ : List (String × Card)) :
    ∀ (m₂ : List (String × Card)), (keys m₁).Nodup → (keys m₂).Nodup →
      (∀ n, dictGet m₁ n = dictGet m₂ n) → m₁.Perm m₂ := by
  induction m₁ with
  | nil =>
    intro m₂ _ _ h
    cases m₂ with
    | nil => exact List.Perm.refl _
    | cons p rest =>
      have h1 := h p.1
      simp [dictGet] at h1
  | cons p t ih =>
    intro m₂ hn₁ hn₂ h
    rw [keys_cons] at hn₁
    obtain ⟨hout, ht⟩ := List.nodup_cons.mp hn₁
    have h1 : dictGet m₂ p.1 = some p.2 := by
      rw [← h p.1]
      simp [dictGet]
    obtain ⟨a, b, rfl, hka⟩ := dictGet_split m₂ p.1 p.2 h1
    have hkeys : keys (a ++ (p.1, p.2) :: b) = keys a ++ p.1 :: keys b := by
      rw [keys, List.map_append]
      rfl
    have hmid : (p.1 :: (keys a ++ keys b)).Nodup := by
      rw [hkeys] at hn₂
      exact List.nodup_middle.mp hn₂
    obtain ⟨hpout, hab⟩ := List.nodup_cons.mp hmid
    have hperm_t : t.Perm (a ++ b) := by
      apply ih (a ++ b) ht ?_ ?_
      · show (keys (a ++ b)).Nodup
        rw [keys, List.map_append]
        exact hab
      · intro n
        by_cases hn : n = p.1
        · have hleft : dictGet t n = none := by
            rw [hn]
            exact (dictGet_eq_none_iff t p.1).mpr hout
          have hright : dictGet (a ++ b) n = none := by
            rw [hn]
            refine (dictGet_eq_none_iff _ p.1).mpr ?_
            rw [keys, List.map_append]
            exact hpout
          rw [hleft, hright]
        · have hpn : ¬ p.1 = n := fun hh => hn hh.symm
          calc dictGet t n = dictGet (p :: t) n := (dictGet_cons_ne p t n hpn).symm
            _ = dictGet (a ++ (p.1, p.2) :: b) n := h n
            _ = (dictGet a n).or (dictGet ((p.1, p.2) :: b) n) :=
                dictGet_append _ _ n
            _ = (dictGet a n).or (dictGet b n) := by
                rw [dictGet_cons_ne (p.1, p.2) b n hpn]
            _ = dictGet (a ++ b) n := (dictGet_append _ _ n).symm
    exact (hperm_t.cons p).trans List.perm_middle.symm

theorem foldl_if_none (q : Card → Bool) (l : List Card) (init : Option Card)
    (h : ∀ r ∈ l, q r = false) :
    l.foldl (fun acc r => if q r then some r else acc) init = init := by
  induction l generalizing init with
  | nil => rfl
  | cons r t ih =>
    have hr : q r = false := h r (by simp)
    simp only [List.foldl_cons, hr]
    simp only [Bool.false_eq_true, if_false]
    exact ih _ (fun x hx => h x (by simp [hx]))

theorem state_lookup_eq_of_perm (X Xp P : List Card) (hperm : X.Perm Xp)
    (hnd : ((X.filter (fun x => validName x.name)).map Card.name).Nodup)
    (n : String) :
    dictGet (mergeLoopState X P).final_by_name n =
      dictGet (mergeLoopState Xp P).final_by_name n := by
  rw [state_lookup, state_lookup]
  by_cases hv : validName n = true
  · rw [foldl_if_filter
        (fun x => (x.name == n) && writes (local_by_name P) x)
        (fun x => x.name == n)
        (fun x hx => (Bool.and_eq_true _ _).mp hx |>.1) X _,
      foldl_if_filter
        (fun x => (x.name == n) && writes (local_by_name P) x)
        (fun x => x.name == n)
        (fun x hx => (Bool.and_eq_true _ _).mp hx |>.1) Xp _]
    have hfe : X.filter (fun x => x.name == n) = Xp.filter (fun x => x.name == n) := by
      apply perm_eq_of_length_le_one (hperm.filter _)
      rw [filter_name_eq_filter_valid X n hv]
      exact filter_name_length_le_one _ n hnd
    rw [hfe]
  · have hq0 : ∀ r, ((r.name == n) && writes (local_by_name P) r) = false := by
      intro r
      by_cases hrn : (r.name == n) = true
      · have hr_eq : r.name = n := by simpa using hrn
        have hval_r : validName r.name = false := by
          rw [hr_eq]
          simpa using hv
        simp [writes_false_of_invalid _ hval_r]
      · have hrn' : (r.name == n) = false := by simpa using hrn
        simp [hrn']
    rw [foldl_if_none _ X _ (fun r _ => hq0 r),
      foldl_if_none _ Xp _ (fun r _ => hq0 r)]

theorem merged_perm_of_perm (X Xp P : List Card) (hperm : X.Perm Xp)
    (hnd : ((X.filter (fun x => validName x.name)).map Card.name).Nodup) :
    (merge_data X P).1.Perm (merge_data Xp P).1 := by
  have hfinal : (mergeLoopState X P).final_by_name.Perm
      (mergeLoopState Xp P).final_by_name :=
    perm_of_dictGet_eq _ _ (final_keys_nodup X P) (final_keys_nodup Xp P)
      (state_lookup_eq_of_perm X Xp P hperm hnd)
  exact (merged_perm_values X P).trans
    ((hfinal.map Prod.snd).trans (merged_perm_values Xp P).symm)

theorem name_eq_of_key_eq {a b : Card} (ha : get_sort_key a < map_order.length)
    (heq : get_sort_key a = get_sort_key b) : a.name = b.name := by
  have hb : get_sort_key b < map_order.length := heq ▸ ha
  have ha' : a.name ∈ map_order := List.indexOf_lt_length.mp ha
  have hb' : b.name ∈ map_order := List.indexOf_lt_length.mp hb
  exact (List.indexOf_inj ha' hb').mp heq

theorem merged_sorted (X P : List Card) :
    List.Sorted sortLE (merge_data X P).1 := by
  rw [merge_data_eq]
  exact sort_data_sorted _

theorem merged_pairwise_ne (X P : List Card) :
    (merge_data X P).1.Pairwise (fun a b => a.name ≠ b.name) :=
  List.pairwise_map.mp (merged_names_nodup X P)

theorem merged_filter_strict (X P : List Card) :
    ((merge_data X P).1.filter
        (fun r => decide (get_sort_key r < map_order.length))).Pairwise
      (fun a b => get_sort_key a < get_sort_key b ∨ a = b) := by
  have hle : ((merge_data X P).1.filter
      (fun r => decide (get_sort_key r < map_order.length))).Pairwise sortLE :=
    List.Sorted.filter _ (merged_sorted X P)
  have hne : ((merge_data X P).1.filter
      (fun r => decide (get_sort_key r < map_order.length))).Pairwise
      (fun a b => a.name ≠ b.name) :=
    (merged_pairwise_ne X P).sublist (List.filter_sublist _)
  refine (hle.and hne).imp_of_mem ?_
  intro a b ha hb hab
  obtain ⟨hleab, hneab⟩ := hab
  have hka : get_sort_key a < map_order.length := by
    have h2 := (List.mem_filter.mp ha).2
    simpa using h2
  left
  exact Nat.lt_of_le_of_ne hleab (fun heq => hneab (name_eq_of_key_eq hka heq))

theorem priority_filter_eq (X Xp P : List Card) (hperm : X.Perm Xp)
    (hnd : ((X.filter (fun x => validName x.name)).map Card.name).Nodup) :
    (merge_data X P).1.filter (fun r => decide (get_sort_key r < map_order.length)) =
      (merge_data Xp P).1.filter (fun r => decide (get_sort_key r < map_order.length)) := by
  haveI : IsAntisymm Card (fun a b => get_sort_key a < get_sort_key b ∨ a = b) := by
    constructor
    intro a b hab hba
    rcases hab with h | h
    · rcases hba with h2 | h2
      · exact absurd h2 (Nat.lt_asymm h)
      · exact h2.symm
    · exact h
  exact List.eq_of_perm_of_sorted
    ((merged_perm_of_perm X Xp P hperm hnd).filter _)
    (merged_filter_strict X P) (merged_filter_strict Xp P)

/-- Claim C6 (counterexample): with an empty persisted list and a batch of
two distinct records whose names are not in the priority list, permuting the
batch permutes the merged output: the two calls return the same records in a
different order, so the output order is not stable under permutation of the
incoming batch. -/
theorem C6_counterexample :
    List.Perm [(⟨"U", "1", "1"⟩ : Card), (⟨"V", "2", "2"⟩ : Card)]
        [(⟨"V", "2", "2"⟩ : Card), (⟨"U", "1", "1"⟩ : Card)] ∧
      ¬ ((merge_data [(⟨"U", "1", "1"⟩ : Card), (⟨"V", "2", "2"⟩ : Card)] []).1 =
          (merge_data [(⟨"V", "2", "2"⟩ : Card), (⟨"U", "1", "1"⟩ : Card)] []).1) := by
  decide

/-- Claim C6 (amended): the merged list is always ordered by the priority
key (records with priority-list names are ordered by list index and precede
all records with other names); and for a permuted batch with no duplicated
valid name, the two merged lists contain the same records (they are
permutations of each other) and agree exactly on the subsequence of records
whose names are in the priority list. Order equality of the records with
non-priority names is not guaranteed, as the counterexample shows. -/
theorem C6_order_determinism (X Xp P : List Card) :
    List.Pairwise sortLE (merge_data X P).1 ∧
      (X.Perm Xp →
        ((X.filter (fun x => validName x.name)).map Card.name).Nodup →
        (merge_data X P).1.Perm (merge_data Xp P).1 ∧
          (merge_data X P).1.filter
              (fun r => decide (get_sort_key r < map_order.length)) =
            (merge_data Xp P).1.filter
              (fun r => decide (get_sort_key r < map_order.length))) := by
  refine ⟨merged_sorted X P, ?_⟩
  intro hperm hnd
  exact ⟨merged_perm_of_perm X Xp P hperm hnd,
    priority_filter_eq X Xp P hperm hnd⟩

theorem C6_order_determinism_witness :
    (merge_data [(⟨"零号大坝", "a", "b"⟩ : Card), (⟨"长弓溪谷", "c", "d"⟩ : Card)] []).1.Perm
        (merge_data [(⟨"长弓溪谷", "c", "d"⟩ : Card), (⟨"零号大坝", "a", "b"⟩ : Card)] []).1 ∧
      (merge_data [(⟨"零号大坝", "a", "b"⟩ : Card), (⟨"长弓溪谷", "c", "d"⟩ : Card)] []).1.filter
          (fun r => decide (get_sort_key r < map_order.length)) =
        (merge_data [(⟨"长弓溪谷", "c", "d"⟩ : Card), (⟨"零号大坝", "a", "b"⟩ : Card)] []).1.filter
          (fun r => decide (get_sort_key r < map_order.length)) :=
  (C6_order_determinism
    [(⟨"零号大坝", "a", "b"⟩ : Card), (⟨"长弓溪谷", "c", "d"⟩ : Card)]
    [(⟨"长弓溪谷", "c", "d"⟩ : Card), (⟨"零号大坝", "a", "b"⟩ : Card)] []).2
    (by decide) (by decide)

end Sanjiaozhou
